import Mathlib

/-!
Shallow embedding of the v2x render-export pipeline (src/main.rs) and proofs
about its specification.  Rust `f32` arithmetic is modelled faithfully on ℚ:
every f32 operation rounds its exact rational result to 24 significand bits,
to nearest with ties to even (`rne24`), and the `as u8` / `as u32` casts keep
their truncating, saturating semantics.  Rust strings are modelled as lists
of characters together with their UTF-8 byte lengths, so that byte-indexed
slicing (and its panics on non-boundary indices) is captured faithfully.
-/

namespace V2X

/-! ### Format registry (src/main.rs lines 14-40) -/

/-- Output format, mirroring `enum Format`. -/
inductive Format
  | avif
  | jpeg
  | png
  | tiff
  | webp
deriving DecidableEq, Repr

/-- Mirrors `Format::extension`. -/
def Format.extension : Format → String
  | .avif => "avif"
  | .jpeg => "jpeg"
  | .png => "png"
  | .tiff => "tiff"
  | .webp => "webp"

/-- Mirrors `Format::has_alpha_channel`. -/
def Format.has_alpha_channel : Format → Bool
  | .avif => true
  | .png => true
  | .tiff => true
  | .webp => true
  | .jpeg => false

/-! ### Byte-level string model -/

/-- Byte length of one character under UTF-8, as Rust `str::len` counts it. -/
def utf8Len (c : Char) : Nat :=
  if c.toNat < 128 then 1
  else if c.toNat < 2048 then 2
  else if c.toNat < 65536 then 3
  else 4

/-- Byte length of a string, Rust `str::len`. -/
def strByteLen (cs : List Char) : Nat :=
  (cs.map utf8Len).sum

/-- Split a character list after exactly `n` UTF-8 bytes; `none` when `n` is
not a character boundary (Rust slicing would panic there). -/
def takeBytes : List Char → Nat → Option (List Char × List Char)
  | cs, 0 => some ([], cs)
  | [], _ + 1 => none
  | c :: cs, n + 1 =>
    if utf8Len c ≤ n + 1 then
      match takeBytes cs (n + 1 - utf8Len c) with
      | none => none
      | some (pre, rest) => some (c :: pre, rest)
    else none

/-- Byte-indexed slice `&s[lo..hi]`; `none` models the Rust panic on an
out-of-range index or a non-character-boundary index. -/
def byteSlice (cs : List Char) (lo hi : Nat) : Option (List Char) :=
  match takeBytes cs lo with
  | none => none
  | some (_, rest) =>
    match takeBytes rest (hi - lo) with
    | none => none
    | some (mid, _) => some mid

/-! ### Color parser (src/main.rs lines 122-145) -/

/-- An RGBA color with byte channels. -/
structure Color where
  r : Nat
  g : Nat
  b : Nat
  a : Nat
deriving DecidableEq, Repr

/-- Value of one hexadecimal digit character, Rust `char::to_digit(16)`. -/
def hexDigitVal (c : Char) : Option Nat :=
  if 48 ≤ c.toNat ∧ c.toNat ≤ 57 then some (c.toNat - 48)
  else if 97 ≤ c.toNat ∧ c.toNat ≤ 102 then some (c.toNat - 87)
  else if 65 ≤ c.toNat ∧ c.toNat ≤ 70 then some (c.toNat - 55)
  else none

/-- A character is a hexadecimal digit when `char::to_digit(16)` succeeds. -/
def isHexDigit (c : Char) : Prop :=
  (hexDigitVal c).isSome

instance (c : Char) : Decidable (isHexDigit c) := by
  unfold isHexDigit; infer_instance

/-- Digit-accumulation loop of `u8::from_str_radix(_, 16)` for a nonnegative
number: checked multiply then checked add, failing on overflow past 255. -/
def hexAccumU8 : List Char → Nat → Option Nat
  | [], acc => some acc
  | c :: cs, acc =>
    match hexDigitVal c with
    | none => none
    | some d => if acc * 16 + d ≤ 255 then hexAccumU8 cs (acc * 16 + d) else none

/-- Digit-accumulation loop of `u8::from_str_radix(_, 16)` after a leading
minus sign: checked multiply then checked subtract on the unsigned value. -/
def hexAccumNegU8 : List Char → Nat → Option Nat
  | [], acc => some acc
  | c :: cs, acc =>
    match hexDigitVal c with
    | none => none
    | some d =>
      if acc * 16 ≤ 255 ∧ d ≤ acc * 16 then hexAccumNegU8 cs (acc * 16 - d) else none

/-- Mirrors `u8::from_str_radix(s, 16)`: optional leading sign, then
hexadecimal digits, with overflow checking. -/
def from_str_radix_16_u8 (cs : List Char) : Option Nat :=
  match cs with
  | [] => none
  | c :: rest =>
    if c == '+' then (if rest.isEmpty then none else hexAccumU8 rest 0)
    else if c == '-' then (if rest.isEmpty then none else hexAccumNegU8 rest 0)
    else hexAccumU8 cs 0

/-- Reason a color-component read fails: a slicing panic or an invalid digit. -/
inductive HexReadError
  | panic
  | invalid
deriving DecidableEq

/-- One component read `u8::from_str_radix(&s[lo..hi], 16)?`: slicing may
panic, parsing may return an error that `?` propagates. -/
def readComp (s : List Char) (lo hi : Nat) : Except HexReadError Nat :=
  match byteSlice s lo hi with
  | none => .error .panic
  | some sub =>
    match from_str_radix_16_u8 sub with
    | none => .error .invalid
    | some v => .ok v

/-- Body of `parse_color` after stripping `#`: dispatch on the byte length,
then read the components left to right. -/
def parseChannels (s : List Char) : Except HexReadError Color :=
  if strByteLen s = 6 then do
    let r ← readComp s 0 2
    let g ← readComp s 2 4
    let b ← readComp s 4 6
    .ok ⟨r, g, b, 255⟩
  else if strByteLen s = 8 then do
    let r ← readComp s 0 2
    let g ← readComp s 2 4
    let b ← readComp s 4 6
    let a ← readComp s 6 8
    .ok ⟨r, g, b, a⟩
  else .error .invalid

/-- Observable outcome of `parse_color`: a color, an `Err` return, or a panic. -/
inductive ParseResult
  | panicked
  | error
  | ok (c : Color)
deriving DecidableEq, Repr

/-- Mirrors `parse_color` (src/main.rs lines 122-145): strip every leading
`#`, then parse 6 or 8 hexadecimal digits, reporting panics separately. -/
def parse_color (input : List Char) : ParseResult :=
  match parseChannels (input.dropWhile (fun c => c == '#')) with
  | .ok c => .ok c
  | .error .invalid => .error
  | .error .panic => .panicked

/-! ### Float casts (Rust `as u8` / `as u32` on an f32 value, modelled on ℚ) -/

/-- Rust `f32 as u8`: truncate toward zero, saturating at the type bounds. -/
def satCastU8 (q : ℚ) : Nat :=
  if q < 0 then 0 else min (Int.toNat ⌊q⌋) 255

/-- Rust `f32 as u32`: truncate toward zero, saturating at the type bounds. -/
def satCastU32 (q : ℚ) : Nat :=
  if q < 0 then 0 else min (Int.toNat ⌊q⌋) 4294967295

/-- Rust `f32::round`: round to nearest, ties away from zero. -/
def roundTiesAway (q : ℚ) : Int :=
  if 0 ≤ q then ⌊q + 1 / 2⌋ else -⌊-q + 1 / 2⌋

/-! ### Binary32 rounding model

An IEEE-754 binary32 operation on exact operands produces the exact rational
result rounded to 24 significand bits, to nearest with ties to even.  The
model below implements exactly that rounding on ℚ, with an unbounded
exponent: it agrees with binary32 on the whole normal finite range, which
covers every value the embedded pipeline can produce (subnormals would need
magnitudes below 2^-126, overflow to infinity only changes results past the
saturation threshold of the integer casts). -/

/-- Round `x` to an integer — down, up, or to even on a tie — then rescale
by `s` (the value of one unit in the last place). -/
def rneScaled (x s : ℚ) : ℚ :=
  if x - (⌊x⌋ : ℚ) < 1 / 2 then (⌊x⌋ : ℚ) * s
  else if 1 / 2 < x - (⌊x⌋ : ℚ) then ((⌊x⌋ : ℚ) + 1) * s
  else if ⌊x⌋ % 2 = 0 then (⌊x⌋ : ℚ) * s
  else ((⌊x⌋ : ℚ) + 1) * s

/-- Round a positive rational to 24 significand bits, ties to even: scale by
the power of two that puts the significand in `[2^23, 2^24)`, round to an
integer, and scale back. -/
def rne24Pos (q : ℚ) : ℚ :=
  rneScaled (q / (2 : ℚ) ^ (Int.log 2 q - 23)) ((2 : ℚ) ^ (Int.log 2 q - 23))

/-- Round-to-nearest-even at binary32 precision on ℚ. -/
def rne24 (q : ℚ) : ℚ :=
  if q < 0 then -rne24Pos (-q) else if q = 0 then 0 else rne24Pos q

/-- Rust integer-to-f32 cast (`v as f32`), rounded to nearest even. -/
def toF32 (n : Nat) : ℚ :=
  rne24 (n : ℚ)

/-- Correctly rounded f32 division of finite values (nonzero divisor). -/
def f32Div (x y : ℚ) : ℚ :=
  rne24 (x / y)

/-- Correctly rounded f32 multiplication of finite values. -/
def f32Mul (x y : ℚ) : ℚ :=
  rne24 (x * y)

/-! ### Dimension resolver (src/main.rs lines 258-288) -/

/-- Mirrors the width/height resolution in `main`: explicit values are used
verbatim; a single missing axis is derived through the intrinsic aspect
ratio in f32 (`base as f32 * (v as f32 / base_other as f32)`) and truncated
by the `as u32` cast; with no explicit axis both axes are
`(intrinsic as f32 * scale).round() as u32`.  Each f32 operation rounds via
`rne24`; `scale` stands for the (exactly representable) f32 the CLI parsed. -/
def resolveDims (base_width base_height : Nat) (uw uh : Option Nat) (scale : ℚ) :
    Nat × Nat :=
  if uw.isSome || uh.isSome then
    let w := match uw with
      | some v => v
      | none =>
        match uh with
        | none => base_width
        | some v => satCastU32 (f32Mul (toF32 base_width) (f32Div (toF32 v) (toF32 base_height)))
    let h := match uh with
      | some v => v
      | none =>
        match uw with
        | none => base_height
        | some v => satCastU32 (f32Mul (toF32 base_height) (f32Div (toF32 v) (toF32 base_width)))
    (w, h)
  else
    (satCastU32 ((roundTiesAway (f32Mul (toF32 base_width) scale) : ℚ)),
     satCastU32 ((roundTiesAway (f32Mul (toF32 base_height) scale) : ℚ)))

/-! ### Pixel buffer converter (src/main.rs lines 147-176) -/

/-- Per-pixel step of `pixmap_to_rgb_buffer`: unpremultiply one premultiplied
RGBA pixel into RGB in f32 arithmetic, with transparent pixels mapped to
black.  The byte-to-f32 casts are exact but kept explicit; the two divisions
round via `rne24`; `min` and the comparison with 0 are exact. -/
def unpremultiplyPixel (r g b a : Nat) : Nat × Nat × Nat :=
  let alpha : ℚ := f32Div (toF32 a) 255
  if 0 < alpha then
    (satCastU8 (min (f32Div (toF32 r) alpha) 255),
     satCastU8 (min (f32Div (toF32 g) alpha) 255),
     satCastU8 (min (f32Div (toF32 b) alpha) 255))
  else (0, 0, 0)

/-- Mirrors `pixmap_to_rgb_buffer`: walk the canvas bytes in exact chunks of
four, emitting three RGB bytes per pixel (a trailing partial chunk is
dropped, as `chunks_exact(4)` drops it). -/
def pixmap_to_rgb_buffer : List Nat → List Nat
  | r :: g :: b :: a :: rest =>
    let p := unpremultiplyPixel r g b a
    p.1 :: p.2.1 :: p.2.2 :: pixmap_to_rgb_buffer rest
  | _ => []

/-! ### Output path construction (src/main.rs lines 301-307) -/

/-- Split a character list around the last occurrence of `sep`:
`some (before, after)` when `sep` occurs, `none` otherwise. -/
def splitAtLastChar (sep : Char) (cs : List Char) : Option (List Char × List Char) :=
  match (cs.reverse.dropWhile (fun c => c != sep)) with
  | [] => none
  | _ :: before => some (before.reverse, (cs.reverse.takeWhile (fun c => c != sep)).reverse)

/-- Rust `Path::file_stem` on a single nonempty path component: the portion
before the final dot, or the whole name when there is no dot or the only
dot is a leading one (and for the special component `..`). -/
def fileStem (cs : List Char) : List Char :=
  if cs = ['.', '.'] then cs
  else
    match splitAtLastChar '.' cs with
    | none => cs
    | some (before, _) => if before = [] then cs else before

/-- Drop trailing `/.` pairs from a reversed path: Rust's `file_name` and
`set_extension` skip trailing `.` components when locating the final file
name. -/
def stripDotSlashSuffix : List Char → List Char
  | a :: b :: rest =>
    if a = '.' ∧ b = '/' then stripDotSlashSuffix rest else a :: b :: rest
  | l => l

/-- Rust `PathBuf::set_extension`: locate the final file name (skipping
trailing `.` components), truncate it to its file stem and append a dot and
the new extension; no change when there is no file name (an empty path, a
bare `.`, or a final `..` component, whose `file_stem` is `None`). -/
def setPathExt (p ext : List Char) : List Char :=
  let q := (stripDotSlashSuffix p.reverse).reverse
  match splitAtLastChar '/' q with
  | none => if q = [] ∨ q = ['.'] ∨ q = ['.', '.'] then p else fileStem q ++ '.' :: ext
  | some (dir, name) =>
    if name = [] ∨ name = ['.', '.'] then p
    else dir ++ '/' :: (fileStem name ++ '.' :: ext)

/-- Rust `PathBuf::push` for a relative, separator-free component: append a
`/` separator only when the base is nonempty and does not already end in
one. -/
def pathPush (base name : List Char) : List Char :=
  if base = [] then name
  else if base.getLast? = some '/' then base ++ name
  else base ++ '/' :: name

/-- Output path for one task (src/main.rs lines 301-307): push the filename
onto the output directory, then `set_extension` with the format extension. -/
def buildOutputPath (output filename : String) (f : Format) : String :=
  ⟨setPathExt (pathPush output.data filename.data) f.extension.data⟩

/-! ### Format list resolution (src/main.rs lines 186-201) -/

/-- Membership test standing in for the `HashSet` of already-seen formats. -/
def seenMem (x : Format) (seen : List Format) : Bool :=
  seen.any (fun y => x == y)

/-- Mirrors `v.retain(|e| seen.insert(e.clone()))`: keep an element exactly
when it has not been seen yet, extending the seen-set as the walk goes. -/
def retainFirstOccurrence (seen : List Format) : List Format → List Format
  | [] => []
  | x :: xs =>
    if seenMem x seen then retainFirstOccurrence seen xs
    else x :: retainFirstOccurrence (x :: seen) xs

/-- The default format list used when `--format` is absent. -/
def allFormats : List Format :=
  [.avif, .jpeg, .png, .tiff, .webp]

/-- Mirrors the format resolution in `main`: all five formats by default,
otherwise the requested list with duplicates removed. -/
def resolveFormats : Option (List Format) → List Format
  | none => allFormats
  | some v => retainFirstOccurrence [] v

/-- Modelled from the spec: one entry per distinct format, in order of each
format's first occurrence (spec-side description, for the refinement
comparison with `resolveFormats`). -/
def specFirstOccurrence (l : List Format) : List Format :=
  l.foldl (fun acc x => if seenMem x acc then acc else acc ++ [x]) []

/-! ### Fan-out task model (src/main.rs lines 290-362) -/

/-- A canvas of a fixed size. -/
structure Pixmap where
  width : Nat
  height : Nat
deriving DecidableEq

/-- Canvas allocation: `tiny_skia::Pixmap::new` returns `None` when either
dimension is 0 (external collaborator contract, spec section 4.5). -/
def pixmapNew (w h : Nat) : Option Pixmap :=
  if w = 0 ∨ h = 0 then none else some ⟨w, h⟩

/-- Background color for one task (src/main.rs lines 312-318): the explicit
user color when given, otherwise transparent for alpha formats and opaque
white for the rest. -/
def taskBackground (background : Option Color) (f : Format) : Color :=
  match background with
  | some v => v
  | none => if f.has_alpha_channel then ⟨0, 0, 0, 0⟩ else ⟨255, 255, 255, 255⟩

/-- Outcome of one fan-out task. -/
inductive TaskResult
  | panicked
  | encodeFailed (path : String)
  | generated (path : String)
deriving DecidableEq

/-- One fan-out task (src/main.rs lines 296-360): build the output path,
allocate the canvas — `Pixmap::new(width, height).expect(..)` panics when a
dimension is 0 — then render and encode; an encode failure is only logged.
`encFails` is the oracle saying which formats' encode/write step fails. -/
def runTask (w h : Nat) (output filename : String) (encFails : Format → Bool)
    (f : Format) : TaskResult :=
  let o := buildOutputPath output filename f
  match pixmapNew w h with
  | none => .panicked
  | some _ => if encFails f then .encodeFailed o else .generated o

/-- Results of the whole fan-out, one per requested format. -/
def fanOutResults (w h : Nat) (output filename : String) (encFails : Format → Bool)
    (formats : List Format) : List TaskResult :=
  formats.map (runTask w h output filename encFails)

/-- Process exit status of `main` for a run that reaches the fan-out: `main`
ends with `Ok(())` regardless of logged per-task encode failures; only a
task panic (propagated by the parallel `for_each`) aborts with a nonzero
status. -/
def mainExitCode (w h : Nat) (output filename : String) (encFails : Format → Bool)
    (formats : List Format) : Nat :=
  if (fanOutResults w h output filename encFails formats).any
      (fun r => r == TaskResult.panicked) then 101
  else 0

/-- Modelled from the spec: unpremultiplied value of one channel,
`clamp(channel / (a/255), 0, 255)` truncated to an integer (spec-side
formula, for comparison with the per-channel computation of
`unpremultiplyPixel`). -/
def specUnpremulChannel (c a : Nat) : Nat :=
  Int.toNat ⌊min (max ((c : Nat) / ((a : Nat) / 255 : ℚ) : ℚ) 0) 255⌋

/-! ## Theorems -/

/-- C1: the claim says degenerate geometry (a resolved width or height of 0)
is rejected by a fatal pre-fan-out error and never reaches the per-task
canvas allocation.  The code has no such guard: with `--width 0 --height 10`
the resolver returns the dimensions verbatim, the fan-out starts, and each
task reaches `Pixmap::new(0, 10)`, which returns `None` and panics through
`expect("size should not be zero.")` — aborting only then, inside the
fan-out, at the canvas-allocation step. -/
theorem c1_degenerate_size_reaches_canvas_allocation :
    resolveDims 100 50 (some 0) (some 10) 1 = (0, 10) ∧
    pixmapNew 0 10 = none ∧
    runTask 0 10 "out" "logo" (fun _ => false) Format.png = TaskResult.panicked ∧
    mainExitCode 0 10 "out" "logo" (fun _ => false) [Format.png, Format.jpeg] = 101 :=
  ⟨rfl, by decide, by decide, by decide⟩

/-- C3: the claim says the color parser returns an error on every non-hex
input — including non-ASCII input — and never panics.  The code byte-slices
`&s[0..2]` after checking only the byte length, so the six-byte string
`"€€"` (two three-byte characters) enters the 6-digit branch and panics on
the non-character-boundary index 2. -/
theorem c3_parse_color_panics_on_multibyte :
    strByteLen ['€', '€'] = 6 ∧ parse_color ['€', '€'] = ParseResult.panicked := by
  decide

/-- C2: per-format encode failures are isolated.  For any requested formats
and any oracle of failing encode steps, the process still exits 0, and every
task whose encode step does not fail produces exactly the result it would
produce in a run with no failures at all — the generated file at its
per-format output path. -/
theorem c2_encode_failure_isolation (w h : Nat) (output filename : String)
    (encFails : Format → Bool) (formats : List Format)
    (hw : 0 < w) (hh : 0 < h) :
    mainExitCode w h output filename encFails formats = 0 ∧
    ∀ f ∈ formats, encFails f = false →
      runTask w h output filename encFails f =
        runTask w h output filename (fun _ => false) f ∧
      runTask w h output filename encFails f =
        TaskResult.generated (buildOutputPath output filename f) := by
  have halloc : pixmapNew w h = some ⟨w, h⟩ := by
    unfold pixmapNew
    rw [if_neg]
    omega
  refine ⟨?_, ?_⟩
  · unfold mainExitCode
    rw [if_neg]
    intro hany
    rw [List.any_eq_true] at hany
    obtain ⟨r, hr, hpan⟩ := hany
    rw [beq_iff_eq] at hpan
    subst hpan
    unfold fanOutResults at hr
    rw [List.mem_map] at hr
    obtain ⟨f, _, hrun⟩ := hr
    rw [runTask, halloc] at hrun
    revert hrun
    cases encFails f <;> simp
  · intro f _ hef
    constructor <;> simp [runTask, halloc, hef]

/-- Witness for C2 at a concrete run: size 64×64, formats
`[avif, png, jpeg]`, with the avif encode forced to fail. -/
theorem c2_encode_failure_isolation_witness :
    mainExitCode 64 64 "out" "logo" (fun f => f == Format.avif)
      [Format.avif, Format.png, Format.jpeg] = 0 ∧
    ∀ f ∈ [Format.avif, Format.png, Format.jpeg],
      (fun f => f == Format.avif) f = false →
      runTask 64 64 "out" "logo" (fun f => f == Format.avif) f =
        runTask 64 64 "out" "logo" (fun _ => false) f ∧
      runTask 64 64 "out" "logo" (fun f => f == Format.avif) f =
        TaskResult.generated (buildOutputPath "out" "logo" f) :=
  c2_encode_failure_isolation 64 64 "out" "logo" (fun f => f == Format.avif)
    [Format.avif, Format.png, Format.jpeg] (by decide) (by decide)

/-- Uniqueness of the binary logarithm from two-sided power bounds. -/
theorem Int_log2_eq (q : ℚ) (e : Int) (hq : 0 < q)
    (h1 : (2 : ℚ) ^ e ≤ q) (h2 : q < (2 : ℚ) ^ (e + 1)) :
    Int.log 2 q = e := by
  have hle : e ≤ Int.log 2 q := (Int.zpow_le_iff_le_log (by norm_num) hq).mp h1
  have hlt : Int.log 2 q < e + 1 := (Int.lt_zpow_iff_log_lt (by norm_num) hq).mp h2
  omega

/-- The scaled rounding in the round-down case. -/
theorem rneScaled_down (x s : ℚ) (m : Int) (hfl : ⌊x⌋ = m)
    (hlt : x < (m : ℚ) + 1 / 2) :
    rneScaled x s = (m : ℚ) * s := by
  unfold rneScaled
  rw [hfl, if_pos (by linarith)]

/-- The scaled rounding in the round-up case. -/
theorem rneScaled_up (x s : ℚ) (m : Int) (hfl : ⌊x⌋ = m)
    (hgt : (m : ℚ) + 1 / 2 < x) :
    rneScaled x s = ((m : ℚ) + 1) * s := by
  unfold rneScaled
  rw [hfl, if_neg (by push_neg; linarith), if_pos (by linarith)]

/-- Evaluate `rne24` from explicit exponent and significand bounds when the
remainder rounds down. -/
theorem rne24_down (q : ℚ) (e m : Int) (hq : 0 < q)
    (h1 : (2 : ℚ) ^ e ≤ q) (h2 : q < (2 : ℚ) ^ (e + 1))
    (hm1 : (m : ℚ) * (2 : ℚ) ^ (e - 23) ≤ q)
    (hm2 : q < ((m : ℚ) + 1 / 2) * (2 : ℚ) ^ (e - 23)) :
    rne24 q = (m : ℚ) * (2 : ℚ) ^ (e - 23) := by
  have hs : (0 : ℚ) < (2 : ℚ) ^ (e - 23) := by positivity
  have hlog : Int.log 2 q = e := Int_log2_eq q e hq h1 h2
  have hx1 : (m : ℚ) ≤ q / (2 : ℚ) ^ (e - 23) := (le_div_iff hs).mpr hm1
  have hx2 : q / (2 : ℚ) ^ (e - 23) < (m : ℚ) + 1 / 2 := (div_lt_iff hs).mpr hm2
  have hfl : ⌊q / (2 : ℚ) ^ (e - 23)⌋ = m :=
    Int.floor_eq_iff.mpr ⟨hx1, by linarith⟩
  unfold rne24 rne24Pos
  rw [if_neg (not_lt.mpr hq.le), if_neg hq.ne', hlog]
  exact rneScaled_down _ _ m hfl hx2

/-- Evaluate `rne24` from explicit exponent and significand bounds when the
remainder rounds up. -/
theorem rne24_up (q : ℚ) (e m : Int) (hq : 0 < q)
    (h1 : (2 : ℚ) ^ e ≤ q) (h2 : q < (2 : ℚ) ^ (e + 1))
    (hm1 : ((m : ℚ) + 1 / 2) * (2 : ℚ) ^ (e - 23) < q)
    (hm2 : q < ((m : ℚ) + 1) * (2 : ℚ) ^ (e - 23)) :
    rne24 q = ((m : ℚ) + 1) * (2 : ℚ) ^ (e - 23) := by
  have hs : (0 : ℚ) < (2 : ℚ) ^ (e - 23) := by positivity
  have hlog : Int.log 2 q = e := Int_log2_eq q e hq h1 h2
  have hx1 : (m : ℚ) + 1 / 2 < q / (2 : ℚ) ^ (e - 23) := (lt_div_iff hs).mpr hm1
  have hx2 : q / (2 : ℚ) ^ (e - 23) < (m : ℚ) + 1 := (div_lt_iff hs).mpr hm2
  have hfl : ⌊q / (2 : ℚ) ^ (e - 23)⌋ = m :=
    Int.floor_eq_iff.mpr ⟨by linarith, by linarith⟩
  unfold rne24 rne24Pos
  rw [if_neg (not_lt.mpr hq.le), if_neg hq.ne', hlog]
  exact rneScaled_up _ _ m hfl hx1

/-- A normalized binary32-representable value is a fixed point of the
rounding. -/
theorem rne24_fixed (m t : Int) (h1 : 2 ^ 23 ≤ m) (h2 : m < 2 ^ 24) :
    rne24 ((m : ℚ) * (2 : ℚ) ^ t) = (m : ℚ) * (2 : ℚ) ^ t := by
  have hst : (0 : ℚ) < (2 : ℚ) ^ t := by positivity
  have hm0 : (0 : ℚ) < (m : ℚ) := by exact_mod_cast lt_of_lt_of_le (by norm_num) h1
  have hml : (8388608 : ℚ) ≤ (m : ℚ) := by exact_mod_cast h1
  have hmu : (m : ℚ) < 16777216 := by exact_mod_cast h2
  have het : (23 : Int) + t - 23 = t := by ring
  have hc := rne24_down ((m : ℚ) * (2 : ℚ) ^ t) (23 + t) m (by positivity) ?_ ?_ ?_ ?_
  · rwa [het] at hc
  · rw [zpow_add₀ (by norm_num : (2 : ℚ) ≠ 0)]
    have h23 : (2 : ℚ) ^ (23 : Int) = 8388608 := by norm_num
    rw [h23]
    exact mul_le_mul_of_nonneg_right hml hst.le
  · have hee : (23 : Int) + t + 1 = 24 + t := by ring
    rw [hee, zpow_add₀ (by norm_num : (2 : ℚ) ≠ 0)]
    have h24 : (2 : ℚ) ^ (24 : Int) = 16777216 := by norm_num
    rw [h24]
    exact mul_lt_mul_of_pos_right hmu hst
  · rw [het]
  · rw [het]
    exact mul_lt_mul_of_pos_right (by linarith) hst

/-- Natural numbers up to `2 ^ 24` are exactly representable in binary32. -/
theorem rne24_natCast (n : Nat) (hn : n ≤ 2 ^ 24) : rne24 ((n : ℚ)) = (n : ℚ) := by
  rcases Nat.eq_zero_or_pos n with rfl | hpos
  · simp [rne24]
  rcases eq_or_lt_of_le hn with h24 | hlt
  · subst h24
    have heq : (((2 ^ 24 : Nat) : ℚ)) = ((8388608 : Int) : ℚ) * (2 : ℚ) ^ (1 : Int) := by
      push_cast
      norm_num
    rw [heq]
    exact rne24_fixed 8388608 1 (by norm_num) (by norm_num)
  · set e := Nat.log 2 n with he
    have he1 : 2 ^ e ≤ n := Nat.pow_log_le_self 2 hpos.ne'
    have he2 : n < 2 ^ (e + 1) := Nat.lt_pow_succ_log_self (by norm_num) n
    have he23 : e ≤ 23 := by
      by_contra hcon
      push_neg at hcon
      have hp : (2 : Nat) ^ 24 ≤ 2 ^ e := Nat.pow_le_pow_right (by norm_num) hcon
      omega
    have hm1 : (2 : Int) ^ 23 ≤ (n : Int) * 2 ^ (23 - e) := by
      have hnn : (2 : Nat) ^ 23 ≤ n * 2 ^ (23 - e) := by
        calc (2 : Nat) ^ 23 = 2 ^ e * 2 ^ (23 - e) := by
              rw [← pow_add]
              congr 1
              omega
        _ ≤ n * 2 ^ (23 - e) := Nat.mul_le_mul_right _ he1
      exact_mod_cast hnn
    have hm2 : (n : Int) * 2 ^ (23 - e) < 2 ^ 24 := by
      have hnn : n * 2 ^ (23 - e) < 2 ^ 24 := by
        calc n * 2 ^ (23 - e) < 2 ^ (e + 1) * 2 ^ (23 - e) :=
              Nat.mul_lt_mul_of_lt_of_le he2 (le_refl _) (Nat.pos_pow_of_pos _ (by norm_num))
        _ = 2 ^ 24 := by
              rw [← pow_add]
              congr 1
              omega
      exact_mod_cast hnn
    have heq : (n : ℚ) = (((n : Int) * 2 ^ (23 - e) : Int) : ℚ) * (2 : ℚ) ^ (-((23 - e : Nat) : Int)) := by
      push_cast
      rw [zpow_neg, zpow_natCast, mul_assoc, mul_inv_cancel₀ (by positivity), mul_one]
    rw [heq]
    exact rne24_fixed _ _ hm1 hm2

/-- The integer-to-f32 cast is exact up to `2 ^ 24`. -/
theorem toF32_natCast (n : Nat) (hn : n ≤ 2 ^ 24) : toF32 n = (n : ℚ) :=
  rne24_natCast n hn

/-- The saturating u8 cast of a byte-sized natural is the identity. -/
theorem satCastU8_natCast (c : Nat) (hc : c ≤ 255) : satCastU8 ((c : ℚ)) = c := by
  unfold satCastU8
  rw [if_neg (not_lt.mpr (by positivity)), Int.floor_natCast]
  simp only [Int.toNat_natCast]
  exact Nat.min_eq_left hc

/-- The saturating u8 cast never exceeds 255. -/
theorem satCastU8_le (q : ℚ) : satCastU8 q ≤ 255 := by
  unfold satCastU8
  split
  · omega
  · exact min_le_right _ _
/-- The saturating u32 cast of a quotient of naturals is capped natural
division. -/
theorem satCastU32_natCast_div (num den : Nat) :
    satCastU32 ((num : ℚ) / (den : ℚ)) = min (num / den) 4294967295 := by
  unfold satCastU32
  rw [if_neg (not_lt.mpr (by positivity)), Int.floor_toNat, Nat.floor_div_eq_div]

/-- The derived-axis expression `base * (given / other)` casts to capped
natural division of the exact product. -/
theorem satCastU32_mul_div (n v m : Nat) :
    satCastU32 ((n : ℚ) * ((v : ℚ) / (m : ℚ))) = min ((v * n) / m) 4294967295 := by
  have h : (n : ℚ) * ((v : ℚ) / (m : ℚ)) = ((v * n : Nat) : ℚ) / (m : ℚ) := by
    push_cast
    ring
  rw [h, satCastU32_natCast_div]

/-- Rust `f32::round` agrees with Mathlib's `round` (round half up) on
nonnegative arguments, where ties away from zero and ties up coincide. -/
theorem roundTiesAway_nonneg (q : ℚ) (h : 0 ≤ q) : roundTiesAway q = round q := by
  unfold roundTiesAway
  rw [if_pos h, round_eq]

/-- The saturating u32 cast of a nonnegative integer value is the capped
integer. -/
theorem satCastU32_intCast (k : Int) (hk : 0 ≤ k) :
    satCastU32 ((k : ℚ)) = min k.toNat 4294967295 := by
  unfold satCastU32
  rw [if_neg (not_lt.mpr (by exact_mod_cast hk)), Int.floor_intCast]

/-- The model's fully opaque alpha byte collapses to an exact f32 value 1. -/
theorem opaque_alpha_eq_one : f32Div (toF32 255) 255 = 1 := by
  have h255 : toF32 255 = ((255 : Nat) : ℚ) := toF32_natCast 255 (by norm_num)
  unfold f32Div
  rw [h255]
  have hq : ((255 : Nat) : ℚ) / 255 = ((1 : Nat) : ℚ) := by
    push_cast
    norm_num
  rw [hq]
  exact rne24_natCast 1 (by norm_num)

/-- C4 counterexample: the claim says every channel is the exact
clamp-then-truncate value `clamp(channel / (a/255), 0, 255)`, but the two
f32 divisions of the code round: at the premultiplied pixel (1,1,1,1) the
f32 alpha `1/255` rounds up, the channel quotient rounds down to just below
255, and the truncation yields 254 where the exact formula gives 255. -/
theorem c4_f32_truncation_counterexample :
    unpremultiplyPixel 1 1 1 1 = (254, 254, 254) ∧
    specUnpremulChannel 1 1 = 255 ∧ (254 : Nat) ≠ 255 := by
  have ht1 : toF32 1 = 1 := by
    simpa using toF32_natCast 1 (by norm_num)
  have halpha : f32Div (toF32 1) 255 = (8421505 : ℚ) * (2 : ℚ) ^ (-31 : Int) := by
    unfold f32Div
    rw [ht1]
    have h := rne24_up ((1 : ℚ) / 255) (-8) 8421504 (by norm_num) (by norm_num)
      (by norm_num) (by norm_num) (by norm_num)
    rw [h]
    norm_num
  have hval : f32Div (toF32 1) ((8421505 : ℚ) * (2 : ℚ) ^ (-31 : Int)) =
      (16711679 : ℚ) * (2 : ℚ) ^ (-16 : Int) := by
    unfold f32Div
    rw [ht1]
    have hq : (1 : ℚ) / ((8421505 : ℚ) * (2 : ℚ) ^ (-31 : Int)) =
        (2147483648 : ℚ) / 8421505 := by
      rw [zpow_neg]
      norm_num
    rw [hq]
    have h := rne24_down ((2147483648 : ℚ) / 8421505) 7 16711679 (by norm_num)
      (by norm_num) (by norm_num) (by norm_num) (by norm_num)
    rw [h]
    norm_num
  have hpos : (0 : ℚ) < (8421505 : ℚ) * (2 : ℚ) ^ (-31 : Int) := by positivity
  refine ⟨?_, ?_, by decide⟩
  · simp only [unpremultiplyPixel]
    rw [halpha, if_pos hpos, hval]
    have hmin : min ((16711679 : ℚ) * (2 : ℚ) ^ (-16 : Int)) 255 =
        (16711679 : ℚ) * (2 : ℚ) ^ (-16 : Int) :=
      min_eq_left (by norm_num)
    rw [hmin]
    have hcast : satCastU8 ((16711679 : ℚ) * (2 : ℚ) ^ (-16 : Int)) = 254 := by
      unfold satCastU8
      rw [if_neg (not_lt.mpr (by positivity))]
      have hfl : ⌊(16711679 : ℚ) * (2 : ℚ) ^ (-16 : Int)⌋ = 254 :=
        Int.floor_eq_iff.mpr ⟨by norm_num, by norm_num⟩
      rw [hfl]
      rfl
    rw [hcast]
  · unfold specUnpremulChannel
    have hq : min (max (((1 : Nat) : ℚ) / (((1 : Nat) : ℚ) / 255)) 0) 255 = 255 := by
      push_cast
      norm_num
    rw [hq]
    rfl

/-- C4 (amended): per pixel and independently of the rest of the buffer, the
RGB conversion maps a fully transparent pixel to black and a fully opaque
pixel to its channels unchanged; every output channel is clamped to [0,255];
the remaining alphas go through the two f32 divisions of the code, whose
rounding can make the truncated channel one less than the exact
clamp-then-truncate value. -/
theorem c4_unpremultiply (r g b a : Nat)
    (hr : r ≤ 255) (hg : g ≤ 255) (hb : b ≤ 255) (ha : a ≤ 255) :
    (a = 0 → unpremultiplyPixel r g b a = (0, 0, 0)) ∧
    unpremultiplyPixel r g b 255 = (r, g, b) ∧
    ((unpremultiplyPixel r g b a).1 ≤ 255 ∧ (unpremultiplyPixel r g b a).2.1 ≤ 255 ∧
      (unpremultiplyPixel r g b a).2.2 ≤ 255) ∧
    (∀ rest, pixmap_to_rgb_buffer (r :: g :: b :: a :: rest) =
      (unpremultiplyPixel r g b a).1 :: (unpremultiplyPixel r g b a).2.1 ::
      (unpremultiplyPixel r g b a).2.2 :: pixmap_to_rgb_buffer rest) := by
  refine ⟨?_, ?_, ?_, fun rest => rfl⟩
  · rintro rfl
    have h0 : f32Div (toF32 0) 255 = 0 := by
      simp [toF32, f32Div, rne24]
    simp [unpremultiplyPixel, h0]
  · have hch : ∀ c : Nat, c ≤ 255 → satCastU8 (min (f32Div (toF32 c) 1) 255) = c := by
      intro c hc
      have hd : f32Div (toF32 c) 1 = (c : ℚ) := by
        unfold f32Div
        rw [toF32_natCast c (by omega), div_one]
        exact rne24_natCast c (by omega)
      rw [hd, min_eq_left (by exact_mod_cast hc)]
      exact satCastU8_natCast c hc
    simp only [unpremultiplyPixel]
    rw [opaque_alpha_eq_one, if_pos (by norm_num : (0 : ℚ) < 1)]
    rw [hch r hr, hch g hg, hch b hb]
  · by_cases hpos : 0 < f32Div (toF32 a) 255
    · simp only [unpremultiplyPixel, if_pos hpos]
      exact ⟨satCastU8_le _, satCastU8_le _, satCastU8_le _⟩
    · simp only [unpremultiplyPixel, if_neg hpos]
      exact ⟨by norm_num, by norm_num, by norm_num⟩

/-- Witness for C4 at the fully opaque pixel (10, 20, 30, 255). -/
theorem c4_unpremultiply_witness :
    unpremultiplyPixel 10 20 30 255 = (10, 20, 30) ∧
    ((unpremultiplyPixel 10 20 30 255).1 ≤ 255 ∧
      (unpremultiplyPixel 10 20 30 255).2.1 ≤ 255 ∧
      (unpremultiplyPixel 10 20 30 255).2.2 ≤ 255) ∧
    pixmap_to_rgb_buffer (10 :: 20 :: 30 :: 255 :: []) =
      (unpremultiplyPixel 10 20 30 255).1 :: (unpremultiplyPixel 10 20 30 255).2.1 ::
      (unpremultiplyPixel 10 20 30 255).2.2 :: pixmap_to_rgb_buffer [] :=
  ⟨(c4_unpremultiply 10 20 30 255 (by decide) (by decide) (by decide) (by decide)).2.1,
   (c4_unpremultiply 10 20 30 255 (by decide) (by decide) (by decide) (by decide)).2.2.1,
   (c4_unpremultiply 10 20 30 255 (by decide) (by decide) (by decide) (by decide)).2.2.2 []⟩

/-- C5 counterexample: the claim says the missing axis is always the exact
truncated product `given * intrinsic_missing / intrinsic_given`, but the
code computes it in f32: at intrinsic (3,1) with width 10^9 the f32 division
rounds the ratio up, giving height 333333344 instead of 333333333; and the
`as u32` cast saturates: at intrinsic (1,100) with width 2147483648 the
height is 4294967295 instead of 214748364800. -/
theorem c5_f32_counterexample :
    (resolveDims 3 1 (some 1000000000) none 1).2 = 333333344 ∧
    1000000000 * 1 / 3 = 333333333 ∧ (333333344 : Nat) ≠ 333333333 ∧
    (resolveDims 1 100 (some 2147483648) none 1).2 = 4294967295 ∧
    2147483648 * 100 / 1 = 214748364800 ∧ (4294967295 : Nat) ≠ 214748364800 := by
  have ht1 : toF32 1 = 1 := by
    simpa using toF32_natCast 1 (by norm_num)
  have ht3 : toF32 3 = 3 := by
    simpa using toF32_natCast 3 (by norm_num)
  have ht100 : toF32 100 = 100 := by
    simpa using toF32_natCast 100 (by norm_num)
  have htB : toF32 1000000000 = 1000000000 := by
    unfold toF32
    have heq : ((1000000000 : Nat) : ℚ) = ((15625000 : Int) : ℚ) * (2 : ℚ) ^ (6 : Int) := by
      push_cast
      norm_num
    rw [heq, rne24_fixed 15625000 6 (by norm_num) (by norm_num)]
    norm_num
  have htA : toF32 2147483648 = 2147483648 := by
    unfold toF32
    have heq : ((2147483648 : Nat) : ℚ) = ((8388608 : Int) : ℚ) * (2 : ℚ) ^ (8 : Int) := by
      push_cast
      norm_num
    rw [heq, rne24_fixed 8388608 8 (by norm_num) (by norm_num)]
    norm_num
  have hratio : f32Div (toF32 1000000000) (toF32 3) = (333333344 : ℚ) := by
    rw [htB, ht3]
    unfold f32Div
    have h := rne24_up ((1000000000 : ℚ) / 3) 28 10416666 (by norm_num) (by norm_num)
      (by norm_num) (by norm_num) (by norm_num)
    rw [h]
    norm_num
  have hmulB : f32Mul (toF32 1) (333333344 : ℚ) = 333333344 := by
    rw [ht1]
    unfold f32Mul
    rw [one_mul]
    have heq : (333333344 : ℚ) = ((10416667 : Int) : ℚ) * (2 : ℚ) ^ (5 : Int) := by
      norm_num
    rw [heq]
    exact rne24_fixed 10416667 5 (by norm_num) (by norm_num)
  have hdivA : f32Div (toF32 2147483648) (toF32 1) = (2147483648 : ℚ) := by
    rw [htA, ht1]
    unfold f32Div
    rw [div_one]
    have heq : (2147483648 : ℚ) = ((8388608 : Int) : ℚ) * (2 : ℚ) ^ (8 : Int) := by
      norm_num
    rw [heq]
    exact rne24_fixed 8388608 8 (by norm_num) (by norm_num)
  have hmulA : f32Mul (toF32 100) (2147483648 : ℚ) = 214748364800 := by
    rw [ht100]
    unfold f32Mul
    have heq : (100 : ℚ) * 2147483648 = ((13107200 : Int) : ℚ) * (2 : ℚ) ^ (14 : Int) := by
      norm_num
    rw [heq, rne24_fixed 13107200 14 (by norm_num) (by norm_num)]
    norm_num
  refine ⟨?_, by norm_num, by decide, ?_, by norm_num, by decide⟩
  · have e : (resolveDims 3 1 (some 1000000000) none 1).2 =
        satCastU32 (f32Mul (toF32 1) (f32Div (toF32 1000000000) (toF32 3))) := rfl
    rw [e, hratio, hmulB]
    unfold satCastU32
    rw [if_neg (by norm_num)]
    have hfl : ⌊(333333344 : ℚ)⌋ = 333333344 :=
      Int.floor_eq_iff.mpr ⟨by norm_num, by norm_num⟩
    rw [hfl]
    decide
  · have e : (resolveDims 1 100 (some 2147483648) none 1).2 =
        satCastU32 (f32Mul (toF32 100) (f32Div (toF32 2147483648) (toF32 1))) := rfl
    rw [e, hdivA, hmulA]
    unfold satCastU32
    rw [if_neg (by norm_num)]
    have hfl : ⌊(214748364800 : ℚ)⌋ = 214748364800 :=
      Int.floor_eq_iff.mpr ⟨by norm_num, by norm_num⟩
    rw [hfl]
    decide

/-- C5 (amended): with exactly one user axis, the given axis is used
verbatim and the scale is ignored; the missing axis is the f32 evaluation
`(base as f32 * (given as f32 / base_other as f32)) as u32`, and whenever
the intrinsic sizes and the given value cast exactly (≤ 2^24) and the two
f32 operations are exact, it equals the truncated exact product
`given * intrinsic_missing / intrinsic_given` capped by the saturating u32
cast — equal to the plain truncated product when that fits in u32. -/
theorem c5_single_axis_aspect_ratio (bw bh v : Nat) (scale : ℚ)
    (hbw : 0 < bw) (hbh : 0 < bh)
    (hbw24 : bw ≤ 2 ^ 24) (hbh24 : bh ≤ 2 ^ 24) (hv24 : v ≤ 2 ^ 24) :
    (resolveDims bw bh (some v) none scale).1 = v ∧
    (resolveDims bw bh none (some v) scale).2 = v ∧
    (rne24 ((v : ℚ) / (bw : ℚ)) = (v : ℚ) / (bw : ℚ) →
      rne24 ((bh : ℚ) * ((v : ℚ) / (bw : ℚ))) = (bh : ℚ) * ((v : ℚ) / (bw : ℚ)) →
      (resolveDims bw bh (some v) none scale).2 = min (v * bh / bw) 4294967295 ∧
      (v * bh / bw ≤ 4294967295 →
        (resolveDims bw bh (some v) none scale).2 = v * bh / bw)) ∧
    (rne24 ((v : ℚ) / (bh : ℚ)) = (v : ℚ) / (bh : ℚ) →
      rne24 ((bw : ℚ) * ((v : ℚ) / (bh : ℚ))) = (bw : ℚ) * ((v : ℚ) / (bh : ℚ)) →
      (resolveDims bw bh none (some v) scale).1 = min (v * bw / bh) 4294967295 ∧
      (v * bw / bh ≤ 4294967295 →
        (resolveDims bw bh none (some v) scale).1 = v * bw / bh)) := by
  have e1 : (resolveDims bw bh (some v) none scale).2 =
      satCastU32 (f32Mul (toF32 bh) (f32Div (toF32 v) (toF32 bw))) := rfl
  have e2 : (resolveDims bw bh none (some v) scale).1 =
      satCastU32 (f32Mul (toF32 bw) (f32Div (toF32 v) (toF32 bh))) := rfl
  refine ⟨rfl, rfl, ?_, ?_⟩
  · intro hdiv hmul
    have hres : satCastU32 (f32Mul (toF32 bh) (f32Div (toF32 v) (toF32 bw))) =
        min (v * bh / bw) 4294967295 := by
      unfold f32Mul f32Div
      rw [toF32_natCast v hv24, toF32_natCast bw hbw24, toF32_natCast bh hbh24,
        hdiv, hmul]
      exact satCastU32_mul_div bh v bw
    refine ⟨e1.trans hres, fun hfit => ?_⟩
    rw [e1, hres]
    exact Nat.min_eq_left hfit
  · intro hdiv hmul
    have hres : satCastU32 (f32Mul (toF32 bw) (f32Div (toF32 v) (toF32 bh))) =
        min (v * bw / bh) 4294967295 := by
      unfold f32Mul f32Div
      rw [toF32_natCast v hv24, toF32_natCast bw hbw24, toF32_natCast bh hbh24,
        hdiv, hmul]
      exact satCastU32_mul_div bw v bh
    refine ⟨e2.trans hres, fun hfit => ?_⟩
    rw [e2, hres]
    exact Nat.min_eq_left hfit

/-- Witness for C5: intrinsic (100, 50) with `width = 50` only gives
height 25 — the ratio 1/2 and the product 25 are exactly representable. -/
theorem c5_single_axis_aspect_ratio_witness :
    (resolveDims 100 50 (some 50) none 1).1 = 50 ∧
    (resolveDims 100 50 (some 50) none 1).2 = min (50 * 50 / 100) 4294967295 ∧
    (50 * 50 / 100 ≤ 4294967295 →
      (resolveDims 100 50 (some 50) none 1).2 = 50 * 50 / 100) := by
  have h := c5_single_axis_aspect_ratio 100 50 50 1 (by decide) (by decide)
    (by norm_num) (by norm_num) (by norm_num)
  have hdiv : rne24 (((50 : Nat) : ℚ) / ((100 : Nat) : ℚ)) =
      ((50 : Nat) : ℚ) / ((100 : Nat) : ℚ) := by
    have heq : ((50 : Nat) : ℚ) / ((100 : Nat) : ℚ) =
        ((8388608 : Int) : ℚ) * (2 : ℚ) ^ (-24 : Int) := by
      push_cast
      norm_num
    rw [heq]
    exact rne24_fixed 8388608 (-24) (by norm_num) (by norm_num)
  have hmul : rne24 (((50 : Nat) : ℚ) * (((50 : Nat) : ℚ) / ((100 : Nat) : ℚ))) =
      ((50 : Nat) : ℚ) * (((50 : Nat) : ℚ) / ((100 : Nat) : ℚ)) := by
    have heq : ((50 : Nat) : ℚ) * (((50 : Nat) : ℚ) / ((100 : Nat) : ℚ)) =
        ((25 : Nat) : ℚ) := by
      push_cast
      norm_num
    rw [heq]
    exact rne24_natCast 25 (by norm_num)
  exact ⟨h.1, (h.2.2.1 hdiv hmul).1, (h.2.2.1 hdiv hmul).2⟩

/-- C6 counterexample: the claim says each axis is always
`round(intrinsic * scale)`, but the code computes the product in f32: at
intrinsic width 16777215 with scale 1+2^-23 the f32 product rounds down to
16777216 while the exact rounded value is 16777217; and the `as u32` cast
saturates: intrinsic (1,1) with scale 2^33 yields 4294967295, not 2^33. -/
theorem c6_f32_counterexample :
    (resolveDims 16777215 1 none none (8388609 / 8388608 : ℚ)).1 = 16777216 ∧
    (round ((16777215 : ℚ) * (8388609 / 8388608))).toNat = 16777217 ∧
    (16777216 : Nat) ≠ 16777217 ∧
    (resolveDims 1 1 none none 8589934592).1 = 4294967295 ∧
    (round ((1 : ℚ) * 8589934592)).toNat = 8589934592 ∧
    (4294967295 : Nat) ≠ 8589934592 := by
  have ht1 : toF32 1 = 1 := by
    simpa using toF32_natCast 1 (by norm_num)
  have htM : toF32 16777215 = 16777215 := by
    simpa using toF32_natCast 16777215 (by norm_num)
  have hmulB : f32Mul (toF32 16777215) (8388609 / 8388608 : ℚ) = 16777216 := by
    rw [htM]
    unfold f32Mul
    have h := rne24_down ((16777215 : ℚ) * (8388609 / 8388608)) 24 8388608 (by norm_num)
      (by norm_num) (by norm_num) (by norm_num) (by norm_num)
    rw [h]
    norm_num
  have hmulA : f32Mul (toF32 1) (8589934592 : ℚ) = 8589934592 := by
    rw [ht1]
    unfold f32Mul
    rw [one_mul]
    have heq : (8589934592 : ℚ) = ((8388608 : Int) : ℚ) * (2 : ℚ) ^ (10 : Int) := by
      norm_num
    rw [heq]
    exact rne24_fixed 8388608 10 (by norm_num) (by norm_num)
  refine ⟨?_, ?_, by decide, ?_, ?_, by decide⟩
  · have e : (resolveDims 16777215 1 none none (8388609 / 8388608 : ℚ)).1 =
        satCastU32 ((roundTiesAway (f32Mul (toF32 16777215) (8388609 / 8388608 : ℚ)) : ℚ)) :=
      rfl
    rw [e, hmulB]
    have hround : roundTiesAway (16777216 : ℚ) = 16777216 := by
      unfold roundTiesAway
      rw [if_pos (by norm_num)]
      exact Int.floor_eq_iff.mpr ⟨by norm_num, by norm_num⟩
    rw [hround]
    unfold satCastU32
    rw [if_neg (by norm_num), Int.floor_intCast]
    decide
  · rw [round_eq]
    have hfl : ⌊(16777215 : ℚ) * (8388609 / 8388608) + 1 / 2⌋ = 16777217 :=
      Int.floor_eq_iff.mpr ⟨by norm_num, by norm_num⟩
    rw [hfl]
    rfl
  · have e : (resolveDims 1 1 none none 8589934592).1 =
        satCastU32 ((roundTiesAway (f32Mul (toF32 1) (8589934592 : ℚ)) : ℚ)) := rfl
    rw [e, hmulA]
    have hround : roundTiesAway (8589934592 : ℚ) = 8589934592 := by
      unfold roundTiesAway
      rw [if_pos (by norm_num)]
      exact Int.floor_eq_iff.mpr ⟨by norm_num, by norm_num⟩
    rw [hround]
    unfold satCastU32
    rw [if_neg (by norm_num), Int.floor_intCast]
    decide
  · rw [round_eq]
    have hfl : ⌊(1 : ℚ) * 8589934592 + 1 / 2⌋ = 8589934592 :=
      Int.floor_eq_iff.mpr ⟨by norm_num, by norm_num⟩
    rw [hfl]
    rfl

/-- C6 (amended): with no user axis and positive scale, each axis is
independently `((intrinsic as f32) * scale).round() as u32`; whenever the
intrinsic sizes cast exactly (≤ 2^24) and the two f32 products are exact,
each axis equals `round(intrinsic * scale)` — round to nearest, ties away
from zero, which on these nonnegative products is Mathlib's `round` —
capped at 4294967295 by the saturating u32 cast, and equals the plain
rounded value whenever it fits in u32. -/
theorem c6_scale_rounding (bw bh : Nat) (scale : ℚ) (hs : 0 < scale)
    (hbw24 : bw ≤ 2 ^ 24) (hbh24 : bh ≤ 2 ^ 24)
    (hpw : rne24 ((bw : ℚ) * scale) = (bw : ℚ) * scale)
    (hph : rne24 ((bh : ℚ) * scale) = (bh : ℚ) * scale) :
    resolveDims bw bh none none scale =
      (min (round ((bw : ℚ) * scale)).toNat 4294967295,
       min (round ((bh : ℚ) * scale)).toNat 4294967295) ∧
    ((round ((bw : ℚ) * scale)).toNat ≤ 4294967295 →
      (resolveDims bw bh none none scale).1 = (round ((bw : ℚ) * scale)).toNat) ∧
    ((round ((bh : ℚ) * scale)).toNat ≤ 4294967295 →
      (resolveDims bw bh none none scale).2 = (round ((bh : ℚ) * scale)).toNat) := by
  have hw0 : (0 : ℚ) ≤ (bw : ℚ) * scale := by positivity
  have hh0 : (0 : ℚ) ≤ (bh : ℚ) * scale := by positivity
  have hrw : 0 ≤ round ((bw : ℚ) * scale) := by
    rw [round_eq]
    exact Int.floor_nonneg.mpr (by linarith)
  have hrh : 0 ≤ round ((bh : ℚ) * scale) := by
    rw [round_eq]
    exact Int.floor_nonneg.mpr (by linarith)
  have ew : f32Mul (toF32 bw) scale = (bw : ℚ) * scale := by
    unfold f32Mul
    rw [toF32_natCast bw hbw24, hpw]
  have eh : f32Mul (toF32 bh) scale = (bh : ℚ) * scale := by
    unfold f32Mul
    rw [toF32_natCast bh hbh24, hph]
  have e : resolveDims bw bh none none scale =
      (satCastU32 ((roundTiesAway (f32Mul (toF32 bw) scale) : ℚ)),
       satCastU32 ((roundTiesAway (f32Mul (toF32 bh) scale) : ℚ))) := rfl
  refine ⟨?_, ?_, ?_⟩
  · rw [e, ew, eh, roundTiesAway_nonneg _ hw0, roundTiesAway_nonneg _ hh0,
      satCastU32_intCast _ hrw, satCastU32_intCast _ hrh]
  · intro hfit
    rw [e]
    show satCastU32 ((roundTiesAway (f32Mul (toF32 bw) scale) : ℚ)) = _
    rw [ew, roundTiesAway_nonneg _ hw0, satCastU32_intCast _ hrw]
    exact Nat.min_eq_left hfit
  · intro hfit
    rw [e]
    show satCastU32 ((roundTiesAway (f32Mul (toF32 bh) scale) : ℚ)) = _
    rw [eh, roundTiesAway_nonneg _ hh0, satCastU32_intCast _ hrh]
    exact Nat.min_eq_left hfit

/-- Witness for C6: intrinsic (100, 50) with scale 2 gives (200, 100) — both
f32 products (200 and 100) are exactly representable. -/
theorem c6_scale_rounding_witness :
    resolveDims 100 50 none none 2 =
      (min (round (((100 : Nat) : ℚ) * 2)).toNat 4294967295,
       min (round (((50 : Nat) : ℚ) * 2)).toNat 4294967295) ∧
    ((round (((100 : Nat) : ℚ) * 2)).toNat ≤ 4294967295 →
      (resolveDims 100 50 none none 2).1 = (round (((100 : Nat) : ℚ) * 2)).toNat) ∧
    ((round (((50 : Nat) : ℚ) * 2)).toNat ≤ 4294967295 →
      (resolveDims 100 50 none none 2).2 = (round (((50 : Nat) : ℚ) * 2)).toNat) := by
  have hpw : rne24 (((100 : Nat) : ℚ) * 2) = ((100 : Nat) : ℚ) * 2 := by
    have heq : ((100 : Nat) : ℚ) * 2 = ((200 : Nat) : ℚ) := by
      push_cast
      norm_num
    rw [heq]
    exact rne24_natCast 200 (by norm_num)
  have hph : rne24 (((50 : Nat) : ℚ) * 2) = ((50 : Nat) : ℚ) * 2 := by
    have heq : ((50 : Nat) : ℚ) * 2 = ((100 : Nat) : ℚ) := by
      push_cast
      norm_num
    rw [heq]
    exact rne24_natCast 100 (by norm_num)
  exact c6_scale_rounding 100 50 2 (by norm_num) (by norm_num) (by norm_num) hpw hph

/-- Unfolding of the seen-set membership test over a cons. -/
theorem seenMem_cons (y x : Format) (s : List Format) :
    seenMem y (x :: s) = ((y == x) || seenMem y s) := by
  simp [seenMem]

/-- The seen-set membership test decides list membership. -/
theorem seenMem_eq_true_iff (x : Format) (s : List Format) :
    seenMem x s = true ↔ x ∈ s := by
  simp [seenMem]

/-- The seen-set dedup walk agrees with the first-occurrence fold, for any
starting accumulator whose membership test matches the seen-set. -/
theorem retain_foldl (l : List Format) :
    ∀ seen acc, (∀ y, seenMem y seen = seenMem y acc) →
      l.foldl (fun acc x => if seenMem x acc then acc else acc ++ [x]) acc =
        acc ++ retainFirstOccurrence seen l := by
  induction l with
  | nil => intro seen acc _; simp [retainFirstOccurrence]
  | cons x xs ih =>
    intro seen acc h
    rw [List.foldl_cons, retainFirstOccurrence]
    by_cases hx : seenMem x seen = true
    · rw [if_pos hx, if_pos ((h x) ▸ hx), ih seen acc h]
    · rw [if_neg hx, if_neg ((h x) ▸ hx)]
      rw [ih (x :: seen) (acc ++ [x]) ?_]
      · rw [List.append_assoc, List.singleton_append]
      · intro y
        rw [seenMem_cons]
        have : seenMem y (acc ++ [x]) = (seenMem y acc || seenMem y [x]) := by
          simp [seenMem]
        rw [this, seenMem_cons, h y]
        simp [seenMem, Bool.or_comm]

/-- Everything the dedup walk keeps was not in the seen-set it started from. -/
theorem retain_not_seen (l : List Format) :
    ∀ seen x, x ∈ retainFirstOccurrence seen l → seenMem x seen = false := by
  induction l with
  | nil => intro seen x hx; simp [retainFirstOccurrence] at hx
  | cons y xs ih =>
    intro seen x hx
    rw [retainFirstOccurrence] at hx
    by_cases hy : seenMem y seen = true
    · rw [if_pos hy] at hx
      exact ih seen x hx
    · rw [if_neg hy] at hx
      rcases List.mem_cons.mp hx with rfl | hx
      · exact Bool.eq_false_iff.mpr hy
      · have h2 := ih (y :: seen) x hx
        rw [seenMem_cons] at h2
        exact (Bool.or_eq_false_iff.mp h2).2

/-- The dedup walk never emits a duplicate. -/
theorem retain_nodup (l : List Format) :
    ∀ seen, (retainFirstOccurrence seen l).Nodup := by
  induction l with
  | nil => intro seen; simp [retainFirstOccurrence]
  | cons y xs ih =>
    intro seen
    rw [retainFirstOccurrence]
    by_cases hy : seenMem y seen = true
    · rw [if_pos hy]; exact ih seen
    · rw [if_neg hy]
      refine List.nodup_cons.mpr ⟨fun hmem => ?_, ih (y :: seen)⟩
      have h2 := retain_not_seen xs (y :: seen) y hmem
      rw [seenMem_cons] at h2
      simp at h2

/-- Membership in the dedup walk's output: exactly the input's elements that
were not already seen. -/
theorem retain_mem (l : List Format) :
    ∀ seen x, x ∈ retainFirstOccurrence seen l ↔ (x ∈ l ∧ seenMem x seen = false) := by
  induction l with
  | nil => intro seen x; simp [retainFirstOccurrence]
  | cons y xs ih =>
    intro seen x
    rw [retainFirstOccurrence]
    by_cases hy : seenMem y seen = true
    · rw [if_pos hy, ih seen x, List.mem_cons]
      constructor
      · rintro ⟨hm, hs⟩; exact ⟨Or.inr hm, hs⟩
      · rintro ⟨rfl | hm, hs⟩
        · rw [hy] at hs; cases hs
        · exact ⟨hm, hs⟩
    · rw [if_neg hy, List.mem_cons, List.mem_cons]
      constructor
      · rintro (rfl | hm)
        · exact ⟨Or.inl rfl, Bool.eq_false_iff.mpr hy⟩
        · have h2 := (ih (y :: seen) x).mp hm
          rw [seenMem_cons] at h2
          exact ⟨Or.inr h2.1, (Bool.or_eq_false_iff.mp h2.2).2⟩
      · rintro ⟨rfl | hm, hs⟩
        · exact Or.inl rfl
        · by_cases hxy : x = y
          · exact Or.inl hxy
          · refine Or.inr ((ih (y :: seen) x).mpr ⟨hm, ?_⟩)
            rw [seenMem_cons, hs]
            simpa using hxy

/-- C7: the task list has exactly one entry per distinct requested format —
it equals the spec's first-occurrence fold, is duplicate-free, and keeps
exactly the requested formats; [A,B,A,C] collapses to [A,B,C]; with no
`--format` option all five supported formats are used. -/
theorem c7_format_dedup :
    (∀ l : List Format,
      resolveFormats (some l) = specFirstOccurrence l ∧
      (resolveFormats (some l)).Nodup ∧
      (∀ x, x ∈ resolveFormats (some l) ↔ x ∈ l)) ∧
    resolveFormats (some [.avif, .webp, .avif, .png]) = [.avif, .webp, .png] ∧
    resolveFormats none = [.avif, .jpeg, .png, .tiff, .webp] := by
  refine ⟨fun l => ⟨?_, retain_nodup l [], fun x => ?_⟩, by decide, rfl⟩
  · have h := retain_foldl l [] [] (fun y => rfl)
    rw [List.nil_append] at h
    exact h.symm
  · rw [show resolveFormats (some l) = retainFirstOccurrence [] l from rfl,
      retain_mem l [] x]
    simp [seenMem]

/-- Dropping while not-`sep` over a list free of `sep` stops at the `sep`. -/
theorem dropWhile_ne_append (sep : Char) (l r : List Char) (h : ∀ c ∈ l, c ≠ sep) :
    (l ++ sep :: r).dropWhile (fun c => c != sep) = sep :: r := by
  induction l with
  | nil => simp [List.dropWhile]
  | cons c cs ih =>
    have hc : c ≠ sep := h c (List.mem_cons_self c cs)
    rw [List.cons_append, List.dropWhile_cons]
    rw [if_pos (by simpa using hc)]
    exact ih (fun x hx => h x (List.mem_cons_of_mem c hx))

/-- Taking while not-`sep` over a list free of `sep` takes it whole. -/
theorem takeWhile_ne_append (sep : Char) (l r : List Char) (h : ∀ c ∈ l, c ≠ sep) :
    (l ++ sep :: r).takeWhile (fun c => c != sep) = l := by
  induction l with
  | nil => simp [List.takeWhile]
  | cons c cs ih =>
    have hc : c ≠ sep := h c (List.mem_cons_self c cs)
    rw [List.cons_append, List.takeWhile_cons]
    rw [if_pos (by simpa using hc)]
    rw [ih (fun x hx => h x (List.mem_cons_of_mem c hx))]

/-- Splitting at the last separator locates the final component, when the
suffix after the separator is separator-free. -/
theorem splitAtLastChar_append (sep : Char) (pre post : List Char)
    (h : ∀ c ∈ post, c ≠ sep) :
    splitAtLastChar sep (pre ++ sep :: post) = some (pre, post) := by
  unfold splitAtLastChar
  have hrev : (pre ++ sep :: post).reverse = post.reverse ++ sep :: pre.reverse := by
    simp
  have hmem : ∀ c ∈ post.reverse, c ≠ sep := fun c hc =>
    h c (List.mem_reverse.mp hc)
  rw [hrev, dropWhile_ne_append sep _ _ hmem, takeWhile_ne_append sep _ _ hmem]
  simp

/-- A list without the separator does not split. -/
theorem splitAtLastChar_of_not_mem (sep : Char) (cs : List Char)
    (h : sep ∉ cs) :
    splitAtLastChar sep cs = none := by
  unfold splitAtLastChar
  have : cs.reverse.dropWhile (fun c => c != sep) = [] := by
    rw [List.dropWhile_eq_nil_iff]
    intro x hx
    simp only [bne_iff_ne, ne_eq]
    rintro rfl
    exact h (List.mem_reverse.mp hx)
  rw [this]

/-- A dot-free file name is its own stem. -/
theorem fileStem_of_no_dot (cs : List Char) (h : '.' ∉ cs) : fileStem cs = cs := by
  unfold fileStem
  rw [if_neg, splitAtLastChar_of_not_mem '.' cs h]
  rintro rfl
  simp at h

/-- The trailing-dot-component strip is the identity when the reversed path
does not start with `.` then `/`. -/
theorem stripDotSlashSuffix_cons₂ (a b : Char) (t : List Char)
    (h : ¬(a = '.' ∧ b = '/')) :
    stripDotSlashSuffix (a :: b :: t) = a :: b :: t := by
  simp only [stripDotSlashSuffix, if_neg h]

/-- Pushing a component onto a nonempty directory that does not end in a
separator inserts exactly one separator. -/
theorem pathPush_plain (base name : List Char) (h1 : base ≠ [])
    (h2 : base.getLast? ≠ some '/') :
    pathPush base name = base ++ '/' :: name := by
  unfold pathPush
  rw [if_neg h1, if_neg h2]

/-- C8 counterexample: the claim says the format extension is appended to
the full filename even when the filename contains a dot, but
`set_extension` replaces an existing extension: filename `my.image` with
format png produces `out/my.png`, not `out/my.image.png`. -/
theorem c8_extension_replaced_counterexample :
    buildOutputPath "out" "my.image" Format.png = "out/my.png" ∧
    buildOutputPath "out" "my.image" Format.png ≠ "out/my.image.png" := by
  decide

/-- C8 (amended): for a nonempty output directory not ending in `/` and a
nonempty, slash-free filename other than the special components `.` and
`..`, the task's file is written at `<output>/<stem>.<format-extension>`
where stem is the filename's file stem (its final extension, when present,
is removed — i.e. replaced by the format extension); when the filename
contains no dot the stem is the full filename, so the path is the full
filename with the format extension appended. -/
theorem c8_output_path (output filename : String) (f : Format)
    (hne : filename.data ≠ []) (hslash : '/' ∉ filename.data)
    (hdots : filename.data ≠ ['.', '.']) (hdot : filename.data ≠ ['.'])
    (houtne : output.data ≠ []) (houtsl : output.data.getLast? ≠ some '/') :
    (buildOutputPath output filename f).data =
      output.data ++ '/' :: (fileStem filename.data ++ '.' :: f.extension.data) ∧
    ('.' ∉ filename.data → fileStem filename.data = filename.data) := by
  constructor
  · show (setPathExt (pathPush output.data filename.data) f.extension.data) = _
    rw [pathPush_plain output.data filename.data houtne houtsl]
    have hstrip : stripDotSlashSuffix ((output.data ++ '/' :: filename.data).reverse) =
        (output.data ++ '/' :: filename.data).reverse := by
      rcases hf : filename.data.reverse with _ | ⟨c, cs⟩
      · exact absurd (by simpa using congrArg List.reverse hf) hne
      · have hrev : (output.data ++ '/' :: filename.data).reverse =
            c :: (cs ++ '/' :: output.data.reverse) := by
          rw [List.reverse_append]
          simp [hf]
        rw [hrev]
        rcases cs with _ | ⟨d, ds⟩
        · have hc : c ≠ '.' := by
            intro hcc
            apply hdot
            have := congrArg List.reverse hf
            simpa [hcc] using this
          exact stripDotSlashSuffix_cons₂ c '/' _ (fun hcd => hc hcd.1)
        · have hd : d ≠ '/' := by
            intro hdd
            apply hslash
            have hmem : d ∈ filename.data.reverse := by
              rw [hf]
              simp
            rw [List.mem_reverse] at hmem
            rw [← hdd]
            exact hmem
          exact stripDotSlashSuffix_cons₂ c d _ (fun hcd => hd hcd.2)
    have hsplit := splitAtLastChar_append '/' output.data filename.data
      (fun c hc => by rintro rfl; exact hslash hc)
    simp only [setPathExt]
    rw [hstrip, List.reverse_reverse, hsplit]
    simp [hne, hdots]
  · exact fileStem_of_no_dot filename.data

/-- Witness for C8 on the dot-free filename `logo` with format png. -/
theorem c8_output_path_witness :
    (buildOutputPath "out" "logo" Format.png).data =
      "out".data ++ '/' :: (fileStem "logo".data ++ '.' :: (Format.png).extension.data) ∧
    ('.' ∉ "logo".data → fileStem "logo".data = "logo".data) :=
  c8_output_path "out" "logo" Format.png (by decide) (by decide) (by decide) (by decide)
    (by decide) (by decide)

/-- Numeric bounds carried by a successful hex-digit conversion. -/
theorem hexDigitVal_bounds (c : Char) (d : Nat) (h : hexDigitVal c = some d) :
    d ≤ 15 ∧ 48 ≤ c.toNat ∧ c.toNat ≤ 102 := by
  unfold hexDigitVal at h
  split_ifs at h with h1 h2 h3
  · injection h with h; omega
  · injection h with h; omega
  · injection h with h; omega

/-- Hex digits are ASCII, hence one UTF-8 byte wide. -/
theorem utf8Len_of_hex (c : Char) (d : Nat) (h : hexDigitVal c = some d) :
    utf8Len c = 1 := by
  have hb := hexDigitVal_bounds c d h
  unfold utf8Len
  rw [if_pos (by omega)]

/-- A hex digit is not the plus sign. -/
theorem hex_ne_plus (c : Char) (d : Nat) (h : hexDigitVal c = some d) :
    (c == '+') = false := by
  have hb := hexDigitVal_bounds c d h
  rw [Bool.eq_false_iff]
  intro hc
  have he : c = '+' := eq_of_beq hc
  subst he
  have : ('+').toNat = 43 := rfl
  omega

/-- A hex digit is not the minus sign. -/
theorem hex_ne_minus (c : Char) (d : Nat) (h : hexDigitVal c = some d) :
    (c == '-') = false := by
  have hb := hexDigitVal_bounds c d h
  rw [Bool.eq_false_iff]
  intro hc
  have he : c = '-' := eq_of_beq hc
  subst he
  have : ('-').toNat = 45 := rfl
  omega

/-- A hex digit is not the hash sign. -/
theorem hex_ne_hash (c : Char) (d : Nat) (h : hexDigitVal c = some d) :
    (c == '#') = false := by
  have hb := hexDigitVal_bounds c d h
  rw [Bool.eq_false_iff]
  intro hc
  have he : c = '#' := eq_of_beq hc
  subst he
  have : ('#').toNat = 35 := rfl
  omega

/-- Parsing two hex digits as a u8 succeeds with the positional value. -/
theorem from_str_radix_hex2 (c c' : Char) (d d' : Nat)
    (h : hexDigitVal c = some d) (h' : hexDigitVal c' = some d') :
    from_str_radix_16_u8 [c, c'] = some (d * 16 + d') := by
  have hb := hexDigitVal_bounds c d h
  have hb' := hexDigitVal_bounds c' d' h'
  have ha0 : d ≤ 255 := by omega
  have ha1 : 0 * 16 + d ≤ 255 := by omega
  have ha2 : d * 16 + d' ≤ 255 := by omega
  simp [from_str_radix_16_u8, hex_ne_plus c d h, hex_ne_minus c d h,
    hexAccumU8, h, h', ha0, ha1, ha2]

/-- On an all-ASCII list, byte splitting is plain positional splitting. -/
theorem takeBytes_ascii (s : List Char) (hall : ∀ c ∈ s, utf8Len c = 1) :
    ∀ n, takeBytes s n =
      if n ≤ s.length then some (s.take n, s.drop n) else none := by
  induction s with
  | nil =>
    intro n
    cases n with
    | zero => simp [takeBytes]
    | succ m => simp [takeBytes]
  | cons c cs ih =>
    intro n
    cases n with
    | zero => simp [takeBytes]
    | succ m =>
      have hc : utf8Len c = 1 := hall c (List.mem_cons_self c cs)
      have ihm := ih (fun x hx => hall x (List.mem_cons_of_mem c hx)) m
      simp only [takeBytes, hc]
      rw [if_pos (by omega), show m + 1 - 1 = m from rfl, ihm]
      by_cases hm : m ≤ cs.length
      · rw [if_pos hm, if_pos (by simp; omega)]
        simp
      · rw [if_neg hm, if_neg (by simp; omega)]

/-- On an all-ASCII list, a byte slice in range is a drop-then-take. -/
theorem byteSlice_ascii (s : List Char) (hall : ∀ c ∈ s, utf8Len c = 1)
    (lo hi : Nat) (hlo : lo ≤ hi) (hhi : hi ≤ s.length) :
    byteSlice s lo hi = some ((s.drop lo).take (hi - lo)) := by
  have h1 := takeBytes_ascii s hall lo
  have h2 := takeBytes_ascii (s.drop lo)
    (fun c hc => hall c (List.drop_subset lo s hc)) (hi - lo)
  rw [if_pos (le_trans hlo hhi)] at h1
  rw [if_pos (by simp; omega)] at h2
  simp [byteSlice, h1, h2]

/-- Parsing six hex digits through `parseChannels` yields the RGB value with
alpha defaulted to 255. -/
theorem parseChannels_hex6 (c1 c2 c3 c4 c5 c6 : Char) (d1 d2 d3 d4 d5 d6 : Nat)
    (h1 : hexDigitVal c1 = some d1) (h2 : hexDigitVal c2 = some d2)
    (h3 : hexDigitVal c3 = some d3) (h4 : hexDigitVal c4 = some d4)
    (h5 : hexDigitVal c5 = some d5) (h6 : hexDigitVal c6 = some d6) :
    parseChannels [c1, c2, c3, c4, c5, c6] =
      .ok ⟨d1 * 16 + d2, d3 * 16 + d4, d5 * 16 + d6, 255⟩ := by
  have u1 := utf8Len_of_hex c1 d1 h1
  have u2 := utf8Len_of_hex c2 d2 h2
  have u3 := utf8Len_of_hex c3 d3 h3
  have u4 := utf8Len_of_hex c4 d4 h4
  have u5 := utf8Len_of_hex c5 d5 h5
  have u6 := utf8Len_of_hex c6 d6 h6
  have hall : ∀ c ∈ [c1, c2, c3, c4, c5, c6], utf8Len c = 1 := by
    intro c hc
    simp only [List.mem_cons, List.not_mem_nil, or_false] at hc
    rcases hc with rfl | rfl | rfl | rfl | rfl | rfl <;> assumption
  have hlen : strByteLen [c1, c2, c3, c4, c5, c6] = 6 := by
    simp [strByteLen, u1, u2, u3, u4, u5, u6]
  have hs1 : byteSlice [c1, c2, c3, c4, c5, c6] 0 2 = some [c1, c2] := by
    rw [byteSlice_ascii _ hall 0 2 (by omega) (by simp)]
    rfl
  have hs2 : byteSlice [c1, c2, c3, c4, c5, c6] 2 4 = some [c3, c4] := by
    rw [byteSlice_ascii _ hall 2 4 (by omega) (by simp)]
    rfl
  have hs3 : byteSlice [c1, c2, c3, c4, c5, c6] 4 6 = some [c5, c6] := by
    rw [byteSlice_ascii _ hall 4 6 (by omega) (by simp)]
    rfl
  simp [parseChannels, hlen, readComp, hs1, hs2, hs3,
    from_str_radix_hex2 c1 c2 d1 d2 h1 h2, from_str_radix_hex2 c3 c4 d3 d4 h3 h4,
    from_str_radix_hex2 c5 c6 d5 d6 h5 h6]
  rfl

/-- Parsing eight hex digits through `parseChannels` yields the RGBA value. -/
theorem parseChannels_hex8 (c1 c2 c3 c4 c5 c6 c7 c8 : Char)
    (d1 d2 d3 d4 d5 d6 d7 d8 : Nat)
    (h1 : hexDigitVal c1 = some d1) (h2 : hexDigitVal c2 = some d2)
    (h3 : hexDigitVal c3 = some d3) (h4 : hexDigitVal c4 = some d4)
    (h5 : hexDigitVal c5 = some d5) (h6 : hexDigitVal c6 = some d6)
    (h7 : hexDigitVal c7 = some d7) (h8 : hexDigitVal c8 = some d8) :
    parseChannels [c1, c2, c3, c4, c5, c6, c7, c8] =
      .ok ⟨d1 * 16 + d2, d3 * 16 + d4, d5 * 16 + d6, d7 * 16 + d8⟩ := by
  have u1 := utf8Len_of_hex c1 d1 h1
  have u2 := utf8Len_of_hex c2 d2 h2
  have u3 := utf8Len_of_hex c3 d3 h3
  have u4 := utf8Len_of_hex c4 d4 h4
  have u5 := utf8Len_of_hex c5 d5 h5
  have u6 := utf8Len_of_hex c6 d6 h6
  have u7 := utf8Len_of_hex c7 d7 h7
  have u8 := utf8Len_of_hex c8 d8 h8
  have hall : ∀ c ∈ [c1, c2, c3, c4, c5, c6, c7, c8], utf8Len c = 1 := by
    intro c hc
    simp only [List.mem_cons, List.not_mem_nil, or_false] at hc
    rcases hc with rfl | rfl | rfl | rfl | rfl | rfl | rfl | rfl <;> assumption
  have hlen : strByteLen [c1, c2, c3, c4, c5, c6, c7, c8] = 8 := by
    simp [strByteLen, u1, u2, u3, u4, u5, u6, u7, u8]
  have hs1 : byteSlice [c1, c2, c3, c4, c5, c6, c7, c8] 0 2 = some [c1, c2] := by
    rw [byteSlice_ascii _ hall 0 2 (by omega) (by simp)]
    rfl
  have hs2 : byteSlice [c1, c2, c3, c4, c5, c6, c7, c8] 2 4 = some [c3, c4] := by
    rw [byteSlice_ascii _ hall 2 4 (by omega) (by simp)]
    rfl
  have hs3 : byteSlice [c1, c2, c3, c4, c5, c6, c7, c8] 4 6 = some [c5, c6] := by
    rw [byteSlice_ascii _ hall 4 6 (by omega) (by simp)]
    rfl
  have hs4 : byteSlice [c1, c2, c3, c4, c5, c6, c7, c8] 6 8 = some [c7, c8] := by
    rw [byteSlice_ascii _ hall 6 8 (by omega) (by simp)]
    rfl
  simp [parseChannels, hlen, readComp, hs1, hs2, hs3, hs4,
    from_str_radix_hex2 c1 c2 d1 d2 h1 h2, from_str_radix_hex2 c3 c4 d3 d4 h3 h4,
    from_str_radix_hex2 c5 c6 d5 d6 h5 h6, from_str_radix_hex2 c7 c8 d7 d8 h7 h8]
  rfl

/-- A leading `#` never changes the parse result. -/
theorem parse_color_cons_hash (s : List Char) :
    parse_color ('#' :: s) = parse_color s := by
  simp [parse_color, List.dropWhile_cons]

/-- An all-hex list does not start with `#`, so the strip is the identity. -/
theorem dropWhile_hash_of_hex (s : List Char) (hhex : ∀ c ∈ s, isHexDigit c) :
    s.dropWhile (fun c => c == '#') = s := by
  cases s with
  | nil => rfl
  | cons c cs =>
    obtain ⟨d, hd⟩ := Option.isSome_iff_exists.mp (hhex c (List.mem_cons_self c cs))
    rw [List.dropWhile_cons, if_neg (by simp [hex_ne_hash c d hd])]

/-- A six-hex-digit string parses to a color with full alpha. -/
theorem parse_color_hex6 (s : List Char) (hlen : s.length = 6)
    (hhex : ∀ c ∈ s, isHexDigit c) :
    ∃ col, parse_color s = ParseResult.ok col ∧ col.a = 255 := by
  rcases s with _ | ⟨c1, s⟩
  · simp at hlen
  rcases s with _ | ⟨c2, s⟩
  · simp at hlen
  rcases s with _ | ⟨c3, s⟩
  · simp at hlen
  rcases s with _ | ⟨c4, s⟩
  · simp at hlen
  rcases s with _ | ⟨c5, s⟩
  · simp at hlen
  rcases s with _ | ⟨c6, s⟩
  · simp at hlen
  rcases s with _ | ⟨c7, s⟩
  · obtain ⟨d1, h1⟩ := Option.isSome_iff_exists.mp (hhex c1 (by simp))
    obtain ⟨d2, h2⟩ := Option.isSome_iff_exists.mp (hhex c2 (by simp))
    obtain ⟨d3, h3⟩ := Option.isSome_iff_exists.mp (hhex c3 (by simp))
    obtain ⟨d4, h4⟩ := Option.isSome_iff_exists.mp (hhex c4 (by simp))
    obtain ⟨d5, h5⟩ := Option.isSome_iff_exists.mp (hhex c5 (by simp))
    obtain ⟨d6, h6⟩ := Option.isSome_iff_exists.mp (hhex c6 (by simp))
    refine ⟨⟨d1 * 16 + d2, d3 * 16 + d4, d5 * 16 + d6, 255⟩, ?_, rfl⟩
    rw [parse_color, dropWhile_hash_of_hex _ hhex,
      parseChannels_hex6 c1 c2 c3 c4 c5 c6 d1 d2 d3 d4 d5 d6 h1 h2 h3 h4 h5 h6]
  · simp only [List.length_cons] at hlen
    omega

/-- An eight-hex-digit string parses to a color. -/
theorem parse_color_hex8 (s : List Char) (hlen : s.length = 8)
    (hhex : ∀ c ∈ s, isHexDigit c) :
    ∃ col, parse_color s = ParseResult.ok col := by
  rcases s with _ | ⟨c1, s⟩
  · simp at hlen
  rcases s with _ | ⟨c2, s⟩
  · simp at hlen
  rcases s with _ | ⟨c3, s⟩
  · simp at hlen
  rcases s with _ | ⟨c4, s⟩
  · simp at hlen
  rcases s with _ | ⟨c5, s⟩
  · simp at hlen
  rcases s with _ | ⟨c6, s⟩
  · simp at hlen
  rcases s with _ | ⟨c7, s⟩
  · simp at hlen
  rcases s with _ | ⟨c8, s⟩
  · simp at hlen
  rcases s with _ | ⟨c9, s⟩
  · obtain ⟨d1, h1⟩ := Option.isSome_iff_exists.mp (hhex c1 (by simp))
    obtain ⟨d2, h2⟩ := Option.isSome_iff_exists.mp (hhex c2 (by simp))
    obtain ⟨d3, h3⟩ := Option.isSome_iff_exists.mp (hhex c3 (by simp))
    obtain ⟨d4, h4⟩ := Option.isSome_iff_exists.mp (hhex c4 (by simp))
    obtain ⟨d5, h5⟩ := Option.isSome_iff_exists.mp (hhex c5 (by simp))
    obtain ⟨d6, h6⟩ := Option.isSome_iff_exists.mp (hhex c6 (by simp))
    obtain ⟨d7, h7⟩ := Option.isSome_iff_exists.mp (hhex c7 (by simp))
    obtain ⟨d8, h8⟩ := Option.isSome_iff_exists.mp (hhex c8 (by simp))
    refine ⟨⟨d1 * 16 + d2, d3 * 16 + d4, d5 * 16 + d6, d7 * 16 + d8⟩, ?_⟩
    rw [parse_color, dropWhile_hash_of_hex _ hhex,
      parseChannels_hex8 c1 c2 c3 c4 c5 c6 c7 c8 d1 d2 d3 d4 d5 d6 d7 d8
        h1 h2 h3 h4 h5 h6 h7 h8]
  · simp only [List.length_cons] at hlen
    omega

/-- C9: a six-hex-digit color always parses with alpha 255, and prefixing a
`#` to a 6- or 8-hex-digit string parses to the same color as the bare
string. -/
theorem c9_hex6_alpha_and_hash_equivalence :
    (∀ s : List Char, s.length = 6 → (∀ c ∈ s, isHexDigit c) →
      ∃ col, parse_color s = ParseResult.ok col ∧ col.a = 255) ∧
    (∀ s : List Char, (s.length = 6 ∨ s.length = 8) → (∀ c ∈ s, isHexDigit c) →
      parse_color ('#' :: s) = parse_color s) :=
  ⟨fun s hlen hhex => parse_color_hex6 s hlen hhex,
   fun s _ _ => parse_color_cons_hash s⟩

/-- Witness for C9 at the concrete strings `AABBCC` and `#AABBCC`. -/
theorem c9_hex6_alpha_and_hash_equivalence_witness :
    (∃ col, parse_color "AABBCC".data = ParseResult.ok col ∧ col.a = 255) ∧
    parse_color ('#' :: "AABBCC".data) = parse_color "AABBCC".data :=
  ⟨c9_hex6_alpha_and_hash_equivalence.1 "AABBCC".data (by decide) (by decide),
   c9_hex6_alpha_and_hash_equivalence.2 "AABBCC".data (Or.inl (by decide)) (by decide)⟩

/-- C10: the parser strips every leading `#`, not just one: any number of
`#` repetitions before a 6- or 8-hex-digit string parses like the bare
string, which itself parses successfully. -/
theorem c10_strips_all_leading_hashes (n : Nat) (s : List Char)
    (hlen : s.length = 6 ∨ s.length = 8) (hhex : ∀ c ∈ s, isHexDigit c) :
    parse_color (List.replicate n '#' ++ s) = parse_color s ∧
    ∃ col, parse_color s = ParseResult.ok col := by
  constructor
  · induction n with
    | zero => rw [List.replicate_zero, List.nil_append]
    | succ m ih => rw [List.replicate_succ, List.cons_append, parse_color_cons_hash, ih]
  · rcases hlen with h6 | h8
    · obtain ⟨col, hcol, _⟩ := parse_color_hex6 s h6 hhex
      exact ⟨col, hcol⟩
    · exact parse_color_hex8 s h8 hhex

/-- Witness for C10: two `#` before the eight-digit string `AABBCCDD`. -/
theorem c10_strips_all_leading_hashes_witness :
    parse_color (List.replicate 2 '#' ++ "AABBCCDD".data) = parse_color "AABBCCDD".data ∧
    ∃ col, parse_color "AABBCCDD".data = ParseResult.ok col :=
  c10_strips_all_leading_hashes 2 "AABBCCDD".data (Or.inr (by decide)) (by decide)

end V2X
